import Mathlib

/-
  Shallow embedding of `src/vector.h` (memory-agnostic growable array, C) and
  proofs about its specification.

  Modelling decisions:
  * `size_t` values are `Nat`; every arithmetic result the C computes in
    `size_t` that could exceed `SIZE_MAX` is wrapped with `w64` (mod 2^64).
  * storage buffers are byte lists (`List Nat`); `NULL` is `Option.none`.
  * an allocator is a record of the three capability slots (presence flags),
    plus an oracle deciding success of each allocate / reallocate call from
    the call counter and requested byte size; fresh memory is modelled as
    zero bytes (the C leaves it unspecified), and `realloc` preserves the
    prefix of the old block.  Counters record how often the reallocate and
    release slots were actually invoked.
  * operations are embedded in their tolerant (NDEBUG) semantics: the
    `assert`s abort only in strict builds, and every assert relevant to the
    claims is paired in the source with a `return false` / guard that the
    embedding keeps.  `vector_init` has assert-only validation, so the
    conjunction of its assert conditions is embedded as `vector_init_ok`.
-/

namespace CVec

/-- Maximum value of a 64-bit `size_t`. -/
def SIZE_MAX : Nat := 2 ^ 64 - 1

/-- Truncation of `size_t` arithmetic: values wrap modulo `2^64`. -/
def w64 (n : Nat) : Nat := n % 2 ^ 64

/-- The `GROWTH_FACTOR` macro of `vector.h`. -/
def GROWTH_FACTOR : Nat := 2

/-- The `Allocator` capability record of `vector.h`: three optional function
slots (modelled as presence flags plus success oracles) and bookkeeping of
the calls made through them. -/
structure Allocator where
  hasAlloc : Bool
  hasRealloc : Bool
  hasFree : Bool
  allocOk : Nat → Nat → Bool
  reallocOk : Nat → Nat → Bool
  nCalls : Nat
  reallocCalls : Nat
  freeCalls : Nat

/-- One call through the `alloc` slot: succeeds when the oracle says so,
returning a fresh (zero-filled) block of the requested size. -/
def Allocator.callAlloc (a : Allocator) (sz : Nat) : Option (List Nat) × Allocator :=
  if a.allocOk a.nCalls sz then
    (some (List.replicate sz 0), { a with nCalls := a.nCalls + 1 })
  else
    (none, { a with nCalls := a.nCalls + 1 })

/-- One call through the `realloc` slot: on success the old contents are
preserved up to the new size. -/
def Allocator.callRealloc (a : Allocator) (old : List Nat) (sz : Nat) :
    Option (List Nat) × Allocator :=
  if a.reallocOk a.nCalls sz then
    (some (old.take sz ++ List.replicate (sz - old.length) 0),
     { a with nCalls := a.nCalls + 1, reallocCalls := a.reallocCalls + 1 })
  else
    (none, { a with nCalls := a.nCalls + 1, reallocCalls := a.reallocCalls + 1 })

/-- One call through the `free` slot (only the invocation count is
observable in the model). -/
def Allocator.callFree (a : Allocator) : Allocator :=
  { a with freeCalls := a.freeCalls + 1 }

/-- The `Vector` struct of `vector.h`. -/
structure Vector where
  size : Nat
  capacity : Nat
  elem_size : Nat
  data : Option (List Nat)
  alloc : Allocator

/-- `n` bytes starting at byte offset `off` of a buffer. -/
def readBytes (buf : List Nat) (off n : Nat) : List Nat :=
  (buf.drop off).take n

/-- Overwrite a buffer with `src` starting at byte offset `off`
(`memcpy`-into-a-buffer; `memmove` is obtained by snapshotting the source
range with `readBytes` first, which matches its as-if-copied semantics). -/
def writeBytes (buf : List Nat) (off : Nat) (src : List Nat) : List Nat :=
  buf.take off ++ src ++ buf.drop (off + src.length)

/-- The `n` bytes `memcpy` reads from a caller-supplied element pointer
(bytes beyond the supplied list are unspecified in C; fixed as zero). -/
def cbytes (n : Nat) (e : List Nat) : List Nat :=
  e.take n ++ List.replicate (n - e.length) 0

/-- `vector_is_valid` from `vector.h` (the non-null check on `v` itself is
vacuous in the model). -/
def vector_is_valid (v : Vector) : Bool :=
  decide (v.size ≤ v.capacity) && (v.capacity == 0 || v.data.isSome)
    && v.alloc.hasAlloc && decide (0 < v.elem_size)

/-- The conjunction of the construction-time `assert` conditions of
`vector_init` (`alloc.alloc != NULL` and `elem_size > 0`): in a strict
build their failure aborts, rejecting construction. -/
def vector_init_ok (alloc : Allocator) (elem_size : Nat) : Bool :=
  alloc.hasAlloc && decide (0 < elem_size)

/-- `vector_init` from `vector.h` (the unconditional construction the
function body performs). -/
def vector_init (alloc : Allocator) (elem_size : Nat) : Vector :=
  { size := 0, capacity := 0, elem_size := elem_size, data := none, alloc := alloc }

/-- `vector_reserve` from `vector.h`. -/
def vector_reserve (v : Vector) (new_capacity : Nat) : Bool × Vector :=
  if new_capacity ≤ v.capacity then (true, v)
  else if v.elem_size ≠ 0 ∧ SIZE_MAX / v.elem_size < new_capacity then (false, v)
  else
    let alloc_size := w64 (new_capacity * v.elem_size)
    if v.data.isSome ∧ v.alloc.hasRealloc then
      match v.alloc.callRealloc (v.data.getD []) alloc_size with
      | (some p, a2) => (true, { v with data := some p, capacity := new_capacity, alloc := a2 })
      | (none, a2) => (false, { v with alloc := a2 })
    else
      match v.alloc.callAlloc alloc_size with
      | (none, a2) => (false, { v with alloc := a2 })
      | (some newBlock, a2) =>
        match v.data with
        | some old =>
          let copied := writeBytes newBlock 0 (readBytes old 0 (w64 (v.size * v.elem_size)))
          let a3 := if v.alloc.hasFree then a2.callFree else a2
          (true, { v with data := some copied, capacity := new_capacity, alloc := a3 })
        | none => (true, { v with data := some newBlock, capacity := new_capacity, alloc := a2 })

/-- The new-capacity computation of `grow_vector` from `vector.h`. -/
def grow_target (capacity : Nat) : Nat :=
  if capacity = 0 then 8
  else if SIZE_MAX / GROWTH_FACTOR < capacity then SIZE_MAX
  else w64 (capacity * GROWTH_FACTOR)

/-- `grow_vector` from `vector.h`. -/
def grow_vector (v : Vector) : Bool × Vector :=
  vector_reserve v (grow_target v.capacity)

/-- `vector_push` from `vector.h`; the element pointer is `Option` (NULL is
`none`). -/
def vector_push (v : Vector) (elem : Option (List Nat)) : Bool × Vector :=
  match elem with
  | none => (false, v)
  | some e =>
    match (if v.size = v.capacity then grow_vector v else (true, v)) with
    | (false, v1) => (false, v1)
    | (true, v1) =>
      let buf := v1.data.getD []
      let buf2 := writeBytes buf (w64 (v1.size * v1.elem_size)) (cbytes v1.elem_size e)
      (true, { v1 with data := some buf2, size := w64 (v1.size + 1) })

/-- `vector_insert` from `vector.h`. -/
def vector_insert (v : Vector) (index : Nat) (elem : Option (List Nat)) : Bool × Vector :=
  match elem with
  | none => (false, v)
  | some e =>
    if v.size < index then (false, v)
    else
      match (if v.size = v.capacity then grow_vector v else (true, v)) with
      | (false, v1) => (false, v1)
      | (true, v1) =>
        let buf := v1.data.getD []
        let moved := writeBytes buf (w64 ((index + 1) * v1.elem_size))
          (readBytes buf (w64 (index * v1.elem_size)) (w64 ((v1.size - index) * v1.elem_size)))
        let buf2 := writeBytes moved (w64 (index * v1.elem_size)) (cbytes v1.elem_size e)
        (true, { v1 with data := some buf2, size := w64 (v1.size + 1) })

/-- `vector_erase` from `vector.h`. -/
def vector_erase (v : Vector) (index : Nat) : Bool × Vector :=
  if v.size ≤ index then (false, v)
  else
    let buf := v.data.getD []
    let buf2 := writeBytes buf (w64 (index * v.elem_size))
      (readBytes buf (w64 ((index + 1) * v.elem_size)) (w64 ((v.size - index - 1) * v.elem_size)))
    (true, { v with data := some buf2, size := v.size - 1 })

/-- `vector_pop` from `vector.h`. -/
def vector_pop (v : Vector) : Bool × Vector :=
  if v.size = 0 then (false, v) else (true, { v with size := v.size - 1 })

/-- `vector_clear` from `vector.h`. -/
def vector_clear (v : Vector) : Vector :=
  { v with size := 0 }

/-- `vector_shrink_to_fit` from `vector.h`. -/
def vector_shrink_to_fit (v : Vector) : Bool × Vector :=
  if v.size = v.capacity then (true, v)
  else if v.size = 0 then
    let a2 := if v.alloc.hasFree then v.alloc.callFree else v.alloc
    (true, { v with data := none, capacity := 0, alloc := a2 })
  else
    let alloc_size := w64 (v.size * v.elem_size)
    if v.alloc.hasRealloc then
      match v.alloc.callRealloc (v.data.getD []) alloc_size with
      | (some p, a2) => (true, { v with data := some p, capacity := v.size, alloc := a2 })
      | (none, a2) => (false, { v with alloc := a2 })
    else if v.alloc.hasAlloc then
      match v.alloc.callAlloc alloc_size with
      | (none, a2) => (false, { v with alloc := a2 })
      | (some newBlock, a2) =>
        let copied := writeBytes newBlock 0 (readBytes (v.data.getD []) 0 (w64 (v.size * v.elem_size)))
        let a3 := if v.alloc.hasFree then a2.callFree else a2
        (true, { v with data := some copied, capacity := v.size, alloc := a3 })
    else (true, { v with capacity := v.size })

/-- Element read-back at index `i` (the `vector_at` macro: `elem_size` bytes
at byte offset `i * elem_size`). -/
def vector_get (v : Vector) (i : Nat) : List Nat :=
  readBytes (v.data.getD []) (w64 (i * v.elem_size)) v.elem_size

/-- Run a sequence of pushes, stopping at the first failure. -/
def pushAll (v : Vector) (xs : List (List Nat)) : Bool × Vector :=
  match xs with
  | [] => (true, v)
  | x :: rest =>
    match vector_push v (some x) with
    | (true, v1) => pushAll v1 rest
    | (false, v1) => (false, v1)

/-- Length of the backing buffer (0 when storage is NULL). -/
def bufLen (v : Vector) : Nat := (v.data.getD []).length

/-- Representation invariant of a valid live vector: the `vector_is_valid`
conditions together with the facts every API-reachable vector satisfies
(`size_t` ranges, allocated length matching `capacity * elem_size`, storage
present exactly when capacity is positive). -/
def Inv (v : Vector) : Prop :=
  v.size ≤ v.capacity ∧ 0 < v.elem_size ∧ v.elem_size ≤ SIZE_MAX ∧
  v.alloc.hasAlloc = true ∧
  v.capacity * v.elem_size ≤ SIZE_MAX ∧
  bufLen v = v.capacity * v.elem_size ∧
  (v.data = none ↔ v.capacity = 0)

/-- Equality of the observable state of two vectors: size, capacity, and
the element bytes at every index below size. -/
def obsEq (v w : Vector) : Prop :=
  w.size = v.size ∧ w.capacity = v.capacity ∧
  ∀ i, i < v.size → vector_get w i = vector_get v i

/-- An allocator whose three slots are all present and always succeed. -/
def okAllocator : Allocator :=
  { hasAlloc := true, hasRealloc := true, hasFree := true,
    allocOk := fun _ _ => true, reallocOk := fun _ _ => true,
    nCalls := 0, reallocCalls := 0, freeCalls := 0 }

/-- An arena-style allocator: only the `alloc` slot is present, and it
always succeeds. -/
def arenaAllocator : Allocator :=
  { hasAlloc := true, hasRealloc := false, hasFree := false,
    allocOk := fun _ _ => true, reallocOk := fun _ _ => false,
    nCalls := 0, reallocCalls := 0, freeCalls := 0 }

/-- An exhausted allocator: all slots present, every allocate / reallocate
call fails. -/
def failAllocator : Allocator :=
  { hasAlloc := true, hasRealloc := true, hasFree := true,
    allocOk := fun _ _ => false, reallocOk := fun _ _ => false,
    nCalls := 0, reallocCalls := 0, freeCalls := 0 }

instance (v : Vector) : Decidable (Inv v) := by
  unfold Inv
  infer_instance

/-- A small valid live vector (one 1-byte element) bound to an exhausted
allocator, used to witness failure atomicity. -/
def vexhausted : Vector :=
  { size := 1, capacity := 1, elem_size := 1, data := some [42], alloc := failAllocator }

/-- A valid live vector holding [10,20,30] as 4-byte elements with room to
spare, bound to an always-succeeding allocator. -/
def vthree : Vector :=
  { size := 3, capacity := 8, elem_size := 4,
    data := some ([10, 0, 0, 0, 20, 0, 0, 0, 30, 0, 0, 0] ++ List.replicate 20 0),
    alloc := okAllocator }

/-- A valid live vector holding [10,15,20,30] as 4-byte elements. -/
def vfour : Vector :=
  { size := 4, capacity := 4, elem_size := 4,
    data := some [10, 0, 0, 0, 15, 0, 0, 0, 20, 0, 0, 0, 30, 0, 0, 0],
    alloc := okAllocator }

/-- A valid live vector with two 4-byte elements bound to an arena-style
(allocate-only) allocator. -/
def varena : Vector :=
  { size := 2, capacity := 2, elem_size := 4,
    data := some [1, 0, 0, 0, 2, 0, 0, 0], alloc := arenaAllocator }

/-- The pathological live state at the top of the size_t range: size ==
capacity == SIZE_MAX with 1-byte elements. -/
def vwrap : Vector :=
  { size := SIZE_MAX, capacity := SIZE_MAX, elem_size := 1,
    data := some (List.replicate SIZE_MAX 0), alloc := arenaAllocator }

theorem size_max_lt : SIZE_MAX < 2 ^ 64 := by
  unfold SIZE_MAX
  have h2 : 0 < 2 ^ 64 := Nat.pos_pow_of_pos _ (by norm_num)
  omega

theorem w64_eq_of_le {n : Nat} (h : n ≤ SIZE_MAX) : w64 n = n := by
  have := size_max_lt
  simp only [w64]
  exact Nat.mod_eq_of_lt (by omega)

theorem w64_le (n : Nat) : w64 n ≤ SIZE_MAX := by
  have h2 : 0 < 2 ^ 64 := Nat.pos_pow_of_pos _ (by norm_num)
  have h3 := Nat.mod_lt n h2
  simp only [w64, SIZE_MAX]
  omega

theorem cbytes_length (n : Nat) (e : List Nat) : (cbytes n e).length = n := by
  simp [cbytes]
  omega

theorem cbytes_of_length {n : Nat} {e : List Nat} (h : e.length = n) : cbytes n e = e := by
  simp [cbytes, h, List.take_of_length_le (le_of_eq h)]

theorem readBytes_length {buf : List Nat} {off n : Nat} (h : off + n ≤ buf.length) :
    (readBytes buf off n).length = n := by
  simp [readBytes]
  omega

theorem writeBytes_length {buf src : List Nat} {off : Nat} (h : off + src.length ≤ buf.length) :
    (writeBytes buf off src).length = buf.length := by
  simp [writeBytes]
  omega

theorem readBytes_append_left {xs ys : List Nat} {off n : Nat} (h : off + n ≤ xs.length) :
    readBytes (xs ++ ys) off n = readBytes xs off n := by
  unfold readBytes
  rw [List.drop_append_of_le_length (by omega),
     List.take_append_of_le_length (by rw [List.length_drop]; omega)]

theorem readBytes_take {buf : List Nat} {m off n : Nat} (h : off + n ≤ m) :
    readBytes (buf.take m) off n = readBytes buf off n := by
  unfold readBytes
  rw [List.drop_take, List.take_take, min_eq_left (by omega)]

theorem readBytes_readBytes {buf : List Nat} {o1 n1 a n : Nat} (h : a + n ≤ n1) :
    readBytes (readBytes buf o1 n1) a n = readBytes buf (o1 + a) n := by
  unfold readBytes
  rw [List.drop_take, List.drop_drop, List.take_take, min_eq_left (by omega)]

theorem readBytes_writeBytes_left {buf src : List Nat} {off i n : Nat}
    (hoff : off ≤ buf.length) (h : i + n ≤ off) :
    readBytes (writeBytes buf off src) i n = readBytes buf i n := by
  unfold readBytes writeBytes
  rw [List.append_assoc, List.drop_append_of_le_length (by simp; omega),
     List.take_append_of_le_length (by simp; omega), List.drop_take, List.take_take,
     min_eq_left (by omega)]

theorem readBytes_writeBytes_self {buf src : List Nat} {off : Nat}
    (hoff : off ≤ buf.length) :
    readBytes (writeBytes buf off src) off src.length = src := by
  unfold readBytes writeBytes
  rw [List.append_assoc, List.drop_append_eq_append_drop,
     List.drop_eq_nil_of_le (by simp), List.nil_append]
  have h0 : off - (List.take off buf).length = 0 := by simp; omega
  rw [h0, List.drop_zero, List.take_left]

theorem readBytes_writeBytes_inside {buf src : List Nat} {off a n : Nat}
    (hoff : off ≤ buf.length) (h : a + n ≤ src.length) :
    readBytes (writeBytes buf off src) (off + a) n = readBytes src a n := by
  rw [← readBytes_readBytes h, readBytes_writeBytes_self hoff]

theorem readBytes_writeBytes_right {buf src : List Nat} {off i n : Nat}
    (hoff : off ≤ buf.length) (h : off + src.length ≤ i) :
    readBytes (writeBytes buf off src) i n = readBytes buf i n := by
  unfold readBytes writeBytes
  rw [List.append_assoc, List.drop_append_eq_append_drop,
     List.drop_eq_nil_of_le (by simp; omega), List.nil_append,
     List.drop_append_eq_append_drop, List.drop_eq_nil_of_le (by simp; omega),
     List.nil_append, List.drop_drop]
  have h1 : (buf.take off).length = off := by simp; omega
  rw [h1]
  have h3 : off + src.length + (i - off - src.length) = i := by omega
  rw [h3]

theorem reserve_false_frame {v w : Vector} {nc : Nat}
    (h : vector_reserve v nc = (false, w)) : ∃ a2, w = { v with alloc := a2 } := by
  simp only [vector_reserve] at h
  split at h
  · simp at h
  · split at h
    · simp at h
      exact ⟨v.alloc, h.symm⟩
    · split at h
      · split at h
        · simp at h
        · simp at h
          exact ⟨_, h.symm⟩
      · split at h
        · simp at h
          exact ⟨_, h.symm⟩
        · split at h
          · simp at h
          · simp at h

theorem shrink_false_frame {v w : Vector}
    (h : vector_shrink_to_fit v = (false, w)) : ∃ a2, w = { v with alloc := a2 } := by
  simp only [vector_shrink_to_fit] at h
  split at h
  · simp at h
  · split at h
    · simp at h
    · split at h
      · split at h
        · simp at h
        · simp at h
          exact ⟨_, h.symm⟩
      · split at h
        · split at h
          · simp at h
            exact ⟨_, h.symm⟩
          · simp at h
        · simp at h

theorem push_false_frame {v w : Vector} {e : Option (List Nat)}
    (h : vector_push v e = (false, w)) : ∃ a2, w = { v with alloc := a2 } := by
  match e with
  | none =>
    simp only [vector_push] at h
    simp at h
    exact ⟨v.alloc, h.symm⟩
  | some el =>
    simp only [vector_push] at h
    split at h
    · next v1 hmatch =>
      simp at h
      subst h
      split at hmatch
      · exact reserve_false_frame (by simpa [grow_vector] using hmatch)
      · simp at hmatch
    · simp at h

theorem insert_false_frame {v w : Vector} {idx : Nat} {e : Option (List Nat)}
    (h : vector_insert v idx e = (false, w)) : ∃ a2, w = { v with alloc := a2 } := by
  match e with
  | none =>
    simp only [vector_insert] at h
    simp at h
    exact ⟨v.alloc, h.symm⟩
  | some el =>
    simp only [vector_insert] at h
    split at h
    · simp at h
      exact ⟨v.alloc, h.symm⟩
    · split at h
      · next v1 hmatch =>
        simp at h
        subst h
        split at hmatch
        · exact reserve_false_frame (by simpa [grow_vector] using hmatch)
        · simp at hmatch
      · simp at h

theorem erase_false_frame {v w : Vector} {idx : Nat}
    (h : vector_erase v idx = (false, w)) : w = v := by
  simp only [vector_erase] at h
  split at h
  · simp at h
    exact h.symm
  · simp at h

theorem pop_false_frame {v w : Vector}
    (h : vector_pop v = (false, w)) : w = v := by
  simp only [vector_pop] at h
  split at h
  · simp at h
    exact h.symm
  · simp at h

theorem obsEq_of_frame {v w : Vector} (hs : w.size = v.size) (hc : w.capacity = v.capacity)
    (hd : w.data = v.data) (he : w.elem_size = v.elem_size) : obsEq v w := by
  refine ⟨hs, hc, fun i _ => ?_⟩
  simp [vector_get, hd, he]

/-- Success specification for vector_reserve from a valid live vector. -/
theorem reserve_true_spec {v w : Vector} {nc : Nat}
    (hI : Inv v) (h : vector_reserve v nc = (true, w)) :
    Inv w ∧ w.size = v.size ∧ w.elem_size = v.elem_size ∧
    w.capacity = max v.capacity nc ∧ w.alloc.hasAlloc = v.alloc.hasAlloc ∧
    w.alloc.hasRealloc = v.alloc.hasRealloc ∧ w.alloc.hasFree = v.alloc.hasFree ∧
    w.alloc.allocOk = v.alloc.allocOk ∧ w.alloc.reallocOk = v.alloc.reallocOk ∧
    (∀ i, i < v.size → vector_get w i = vector_get v i) := by
  obtain ⟨hsc, hes, hesm, hha, hprod, hlen, hdc⟩ := hI
  simp only [vector_reserve] at h
  split at h
  · -- no-op: nc ≤ capacity
    next hle =>
    simp at h
    subst h
    refine ⟨⟨hsc, hes, hesm, hha, hprod, hlen, hdc⟩, rfl, rfl, (max_eq_left hle).symm,
      rfl, rfl, rfl, rfl, rfl, fun i _ => rfl⟩
  · next hgt =>
    have hcap : v.capacity < nc := by omega
    have hmax : max v.capacity nc = nc := max_eq_right (le_of_lt hcap)
    split at h
    · simp at h
    · next hover =>
      -- overflow check passed
      have h2 : nc ≤ SIZE_MAX / v.elem_size := by
        rcases Decidable.not_and_iff_or_not.mp hover with h3 | h3
        · omega
        · omega
      have hnces : nc * v.elem_size ≤ SIZE_MAX := (Nat.le_div_iff_mul_le hes).mp h2
      have hw : w64 (nc * v.elem_size) = nc * v.elem_size := w64_eq_of_le hnces
      have hcapes : v.capacity * v.elem_size ≤ nc * v.elem_size :=
        Nat.mul_le_mul_right _ (le_of_lt hcap)
      have hszes : v.size * v.elem_size ≤ v.capacity * v.elem_size :=
        Nat.mul_le_mul_right _ hsc
      have hncpos : 0 < nc := by omega
      rw [hw] at h
      -- element-read helper bound
      have hread : ∀ i, i < v.size → i * v.elem_size + v.elem_size ≤ v.size * v.elem_size := by
        intro i hi
        calc i * v.elem_size + v.elem_size = (i + 1) * v.elem_size := (Nat.succ_mul i _).symm
        _ ≤ v.size * v.elem_size := Nat.mul_le_mul_right _ hi
      have hwoff : ∀ i, i < v.size → w64 (i * v.elem_size) = i * v.elem_size := fun i hi =>
        w64_eq_of_le (by have := hread i hi; omega)
      split at h
      · -- realloc path
        next hre =>
        obtain ⟨hdsome, hrel⟩ := hre
        obtain ⟨old, hold⟩ := Option.isSome_iff_exists.mp hdsome
        rw [hold] at h
        have holdlen : old.length = v.capacity * v.elem_size := by
          simpa [bufLen, hold] using hlen
        split at h
        · next p a2 heq =>
          simp only [Allocator.callRealloc] at heq
          split at heq
          · simp at heq
            obtain ⟨hp, ha2⟩ := heq
            simp at h
            subst h
            have htake : (old.take (nc * v.elem_size)) = old :=
              List.take_of_length_le (by omega)
            rw [htake] at hp
            constructor
            · -- Inv w
              refine ⟨by simp; omega, hes, hesm, by simp [← ha2, hha], by simpa using hnces,
                ?_, by simp; omega⟩
              simp [bufLen, ← hp, holdlen]
              omega
            · refine ⟨rfl, rfl, by simpa using hmax, by simp [← ha2],
                by simp [← ha2], by simp [← ha2], by simp [← ha2], by simp [← ha2],
                fun i hi => ?_⟩
              simp only [vector_get, Option.getD_some, ← hp, hold]
              rw [hwoff i hi]
              exact readBytes_append_left (by rw [holdlen]; have := hread i hi; omega)
          · simp at heq
        · simp at h
      · -- alloc path
        next hre =>
        split at h
        · simp at h
        · next newBlock a2 heq =>
          simp only [Allocator.callAlloc] at heq
          split at heq
          · simp at heq
            obtain ⟨hnb, ha2⟩ := heq
            have hwsz : w64 (v.size * v.elem_size) = v.size * v.elem_size :=
              w64_eq_of_le (by omega)
            split at h
            · -- v.data = some old
              next old hold =>
              simp at h
              subst h
              have holdlen : old.length = v.capacity * v.elem_size := by
                simpa [bufLen, hold] using hlen
              have hsrclen : (readBytes old 0 (v.size * v.elem_size)).length
                  = v.size * v.elem_size := readBytes_length (by omega)
              constructor
              · refine ⟨by simp; omega, hes, hesm, ?_, by simpa using hnces, ?_, by simp; omega⟩
                · split <;> simp [Allocator.callFree, ← ha2, ← hnb, hha]
                · simp only [bufLen, Option.getD_some]
                  rw [hwsz, writeBytes_length
                    (by rw [hsrclen, ← hnb]; simpa using le_trans hszes hcapes), ← hnb]
                  simp
              · refine ⟨rfl, rfl, by simpa using hmax, ?_, ?_, ?_, ?_, ?_, fun i hi => ?_⟩
                · split <;> simp [Allocator.callFree, ← ha2, ← hnb]
                · split <;> simp [Allocator.callFree, ← ha2, ← hnb]
                · split <;> simp [Allocator.callFree, ← ha2, ← hnb]
                · split <;> simp [Allocator.callFree, ← ha2, ← hnb]
                · split <;> simp [Allocator.callFree, ← ha2, ← hnb]
                · simp only [vector_get, Option.getD_some, hold]
                  rw [hwoff i hi, hwsz]
                  have hin : readBytes (writeBytes newBlock 0 (readBytes old 0 (v.size * v.elem_size)))
                      (0 + i * v.elem_size) v.elem_size
                      = readBytes (readBytes old 0 (v.size * v.elem_size)) (i * v.elem_size) v.elem_size :=
                    readBytes_writeBytes_inside (by omega)
                      (by rw [hsrclen]; exact hread i hi)
                  rw [Nat.zero_add] at hin
                  rw [hin, readBytes_readBytes (hread i hi), Nat.zero_add]
            · -- v.data = none
              next hnone =>
              have hcap0 : v.capacity = 0 := hdc.mp hnone
              have hsz0 : v.size = 0 := by omega
              simp at h
              subst h
              constructor
              · refine ⟨by simp; omega, hes, hesm, by simp [← ha2, hha], by simpa using hnces,
                  ?_, by simp; omega⟩
                simp [bufLen, ← hnb]
              · exact ⟨rfl, rfl, by simpa using hmax, by simp [← ha2], by simp [← ha2],
                  by simp [← ha2], by simp [← ha2], by simp [← ha2],
                  fun i hi => by omega⟩
          · simp at heq

theorem grow_target_le (c : Nat) : grow_target c ≤ SIZE_MAX := by
  unfold grow_target
  split
  · unfold SIZE_MAX
    norm_num
  · split
    · exact le_refl _
    · exact w64_le _

theorem lt_grow_target {c : Nat} (h : c < SIZE_MAX) : c < grow_target c := by
  unfold grow_target GROWTH_FACTOR
  split
  · omega
  · split
    · exact h
    · next h0 h2 =>
      have hd : c * 2 ≤ SIZE_MAX := by
        have := Nat.div_mul_le_self SIZE_MAX 2
        omega
      rw [w64_eq_of_le hd]
      omega

theorem capacity_le_size_max {v : Vector} (hI : Inv v) : v.capacity ≤ SIZE_MAX := by
  obtain ⟨hsc, hes, hesm, hha, hprod, hlen, hdc⟩ := hI
  calc v.capacity = v.capacity * 1 := (Nat.mul_one _).symm
  _ ≤ v.capacity * v.elem_size := Nat.mul_le_mul_left _ hes
  _ ≤ SIZE_MAX := hprod

/-- Effect of the final write-and-increment step of vector_push, from a state
with room for one more element. -/
theorem write_step_spec {v1 : Vector} {e : List Nat}
    (hI : Inv v1) (he : e.length = v1.elem_size) (hroom : v1.size < v1.capacity) :
    Inv { v1 with
        data := some (writeBytes (v1.data.getD []) (w64 (v1.size * v1.elem_size)) (cbytes v1.elem_size e)),
        size := w64 (v1.size + 1) } ∧
    w64 (v1.size + 1) = v1.size + 1 ∧
    (∀ i, i < v1.size →
      vector_get { v1 with
        data := some (writeBytes (v1.data.getD []) (w64 (v1.size * v1.elem_size)) (cbytes v1.elem_size e)),
        size := w64 (v1.size + 1) } i = vector_get v1 i) ∧
    vector_get { v1 with
        data := some (writeBytes (v1.data.getD []) (w64 (v1.size * v1.elem_size)) (cbytes v1.elem_size e)),
        size := w64 (v1.size + 1) } v1.size = e := by
  obtain ⟨hsc, hes, hesm, hha, hprod, hlen, hdc⟩ := hI
  have hcapm : v1.capacity ≤ SIZE_MAX :=
    capacity_le_size_max ⟨hsc, hes, hesm, hha, hprod, hlen, hdc⟩
  have hlen' : (v1.data.getD []).length = v1.capacity * v1.elem_size := hlen
  have hsm : (v1.size + 1) * v1.elem_size = v1.size * v1.elem_size + v1.elem_size := by ring
  have hs1 : w64 (v1.size + 1) = v1.size + 1 := w64_eq_of_le (by omega)
  have hs1es : v1.size * v1.elem_size + v1.elem_size ≤ v1.capacity * v1.elem_size := by
    rw [← hsm]
    exact Nat.mul_le_mul_right _ hroom
  have hoffw : w64 (v1.size * v1.elem_size) = v1.size * v1.elem_size :=
    w64_eq_of_le (by omega)
  have hbound : v1.size * v1.elem_size + (cbytes v1.elem_size e).length ≤ (v1.data.getD []).length := by
    rw [cbytes_length, hlen']
    omega
  have hwlen : (writeBytes (v1.data.getD []) (w64 (v1.size * v1.elem_size)) (cbytes v1.elem_size e)).length
      = v1.capacity * v1.elem_size := by
    rw [hoffw, writeBytes_length hbound, hlen']
  refine ⟨⟨by simp [hs1]; omega, hes, hesm, hha, hprod, by simp [bufLen, hwlen], by simp; omega⟩,
    hs1, fun i hi => ?_, ?_⟩
  · simp only [vector_get, Option.getD_some]
    rw [hoffw]
    have him : (i + 1) * v1.elem_size = i * v1.elem_size + v1.elem_size := by ring
    have h1 : (i + 1) * v1.elem_size ≤ v1.size * v1.elem_size := Nat.mul_le_mul_right _ hi
    have hwi : w64 (i * v1.elem_size) = i * v1.elem_size := w64_eq_of_le (by omega)
    rw [hwi]
    exact readBytes_writeBytes_left (by rw [hlen']; omega) (by omega)
  · simp only [vector_get, Option.getD_some]
    rw [hoffw]
    have hself := @readBytes_writeBytes_self (v1.data.getD [])
      (cbytes v1.elem_size e) (v1.size * v1.elem_size)
      (by rw [hlen']; omega)
    rw [cbytes_length] at hself
    rw [hself, cbytes_of_length he]

/-- Success specification for vector_push from a valid live vector whose size
is below SIZE_MAX. -/
theorem push_true_spec {v w : Vector} {e : List Nat}
    (hI : Inv v) (he : e.length = v.elem_size) (hsz : v.size < SIZE_MAX)
    (h : vector_push v (some e) = (true, w)) :
    Inv w ∧ w.size = v.size + 1 ∧ w.elem_size = v.elem_size ∧
    v.capacity ≤ w.capacity ∧
    w.alloc.hasAlloc = v.alloc.hasAlloc ∧ w.alloc.hasRealloc = v.alloc.hasRealloc ∧
    w.alloc.hasFree = v.alloc.hasFree ∧ w.alloc.allocOk = v.alloc.allocOk ∧
    w.alloc.reallocOk = v.alloc.reallocOk ∧
    (∀ i, i < v.size → vector_get w i = vector_get v i) ∧
    vector_get w v.size = e := by
  simp only [vector_push] at h
  split at h
  · simp at h
  · next v1 hmatch =>
    simp at h
    have hv1 : Inv v1 ∧ v1.size = v.size ∧ v1.elem_size = v.elem_size ∧
        v.size < v1.capacity ∧ v.capacity ≤ v1.capacity ∧
        v1.alloc.hasAlloc = v.alloc.hasAlloc ∧ v1.alloc.hasRealloc = v.alloc.hasRealloc ∧
        v1.alloc.hasFree = v.alloc.hasFree ∧ v1.alloc.allocOk = v.alloc.allocOk ∧
        v1.alloc.reallocOk = v.alloc.reallocOk ∧
        (∀ i, i < v.size → vector_get v1 i = vector_get v i) := by
      split at hmatch
      · next hfull =>
        have hres := reserve_true_spec hI (by simpa [grow_vector] using hmatch)
        obtain ⟨hI1, hs1, he1, hc1, hf1, hf2, hf3, hf4, hf5, hr1⟩ := hres
        refine ⟨hI1, hs1, he1, ?_, ?_, hf1, hf2, hf3, hf4, hf5, hr1⟩
        · rw [hc1]
          have h3 := lt_grow_target (c := v.capacity) (by omega)
          calc v.size = v.capacity := hfull
          _ < grow_target v.capacity := h3
          _ ≤ max v.capacity (grow_target v.capacity) := le_max_right _ _
        · rw [hc1]
          exact le_max_left _ _
      · next hnfull =>
        simp at hmatch
        subst hmatch
        have hsc := hI.1
        exact ⟨hI, rfl, rfl, by omega, le_refl _, rfl, rfl, rfl, rfl, rfl,
          fun i _ => rfl⟩
    obtain ⟨hI1, hs1, he1, hroom1, hcap1, hf1, hf2, hf3, hf4, hf5, hr1⟩ := hv1
    have hws := write_step_spec hI1 (by rw [he1, he]) (by omega)
    obtain ⟨hIw, hs2, hrd, hlast⟩ := hws
    subst h
    refine ⟨hIw, by simp [hs2]; omega, by simp [he1], by simpa using hcap1,
      by simp [hf1], by simp [hf2], by simp [hf3], by simp [hf4], by simp [hf5],
      fun i hi => ?_, ?_⟩
    · have := hrd i (by omega)
      rw [this, hr1 i hi]
    · simpa only [hs1] using hlast

/-- Specification of a successful sequence of pushes (sizes staying
representable). -/
theorem pushAll_true_spec : ∀ (xs : List (List Nat)) (v w : Vector),
    Inv v → (∀ x ∈ xs, x.length = v.elem_size) → v.size + xs.length ≤ SIZE_MAX →
    pushAll v xs = (true, w) →
    Inv w ∧ w.size = v.size + xs.length ∧ w.elem_size = v.elem_size ∧
    (∀ i, i < v.size → vector_get w i = vector_get v i) ∧
    (∀ j, j < xs.length → vector_get w (v.size + j) = xs.getD j [])
  | [], v, w, hI, _, _, h => by
    simp [pushAll] at h
    subst h
    exact ⟨hI, by simp, rfl, fun i _ => rfl, fun j hj => by simp at hj⟩
  | x :: rest, v, w, hI, hlen, hbound, h => by
    simp only [pushAll] at h
    split at h
    · next v1 hpush =>
      have hps := push_true_spec hI (hlen x (by simp)) (by simp at hbound; omega) hpush
      obtain ⟨hI1, hs1, he1, _, _, _, _, _, _, hrd1, hlast1⟩ := hps
      have hih := pushAll_true_spec rest v1 w hI1
        (fun y hy => by rw [he1]; exact hlen y (by simp [hy]))
        (by simp at hbound ⊢; omega) h
      obtain ⟨hIw, hsw, hew, hrdw, hjw⟩ := hih
      refine ⟨hIw, by simp at hbound ⊢; omega, by rw [hew, he1],
        fun i hi => ?_, fun j hj => ?_⟩
      · rw [hrdw i (by omega), hrd1 i hi]
      · match j with
        | 0 =>
          rw [Nat.add_zero, hrdw v.size (by omega), hlast1]
          simp
        | j' + 1 =>
          have hj' : j' < rest.length := by simp at hj; omega
          have := hjw j' hj'
          rw [show v.size + (j' + 1) = v1.size + j' by omega, this]
          simp
    · simp at h

/-- Appending push sequences after a successful push run. -/
theorem pushAll_append : ∀ (xs ys : List (List Nat)) (v w : Vector),
    pushAll v xs = (true, w) → pushAll v (xs ++ ys) = pushAll w ys
  | [], ys, v, w, h => by
    simp [pushAll] at h
    subst h
    rfl
  | x :: rest, ys, v, w, h => by
    simp only [pushAll, List.cons_append] at h ⊢
    rcases hp : vector_push v (some x) with ⟨b, v1⟩
    simp only [hp] at h ⊢
    cases b
    · simp at h
    · dsimp only at h ⊢
      exact pushAll_append rest ys v1 w h

/-- vector_reserve succeeds whenever the allocator oracle always succeeds and
the requested byte size is representable. -/
theorem reserve_succeeds_oracle {v : Vector} {nc : Nat} (hI : Inv v)
    (hA : ∀ k s, v.alloc.allocOk k s = true) (hR : ∀ k s, v.alloc.reallocOk k s = true)
    (hnc : nc * v.elem_size ≤ SIZE_MAX) : (vector_reserve v nc).1 = true := by
  have hes := hI.2.1
  simp only [vector_reserve]
  split
  · rfl
  · split
    · next hover =>
      exfalso
      obtain ⟨-, hdiv⟩ := hover
      have := (Nat.div_lt_iff_lt_mul hes).mp hdiv
      omega
    · split
      · simp [Allocator.callRealloc, hR]
      · simp only [Allocator.callAlloc, hA, if_true]
        split <;> rfl

/-- vector_push succeeds under an always-succeeding oracle provided the grown
byte size is representable. -/
theorem push_succeeds_oracle {v : Vector} {e : List Nat} (hI : Inv v)
    (hA : ∀ k s, v.alloc.allocOk k s = true) (hR : ∀ k s, v.alloc.reallocOk k s = true)
    (hg : grow_target v.capacity * v.elem_size ≤ SIZE_MAX) :
    (vector_push v (some e)).1 = true := by
  simp only [vector_push]
  split
  · next v1 hmatch =>
    exfalso
    split at hmatch
    · have h1 : (grow_vector v).1 = true := by
        simpa [grow_vector] using reserve_succeeds_oracle hI hA hR hg
      rw [hmatch] at h1
      simp at h1
    · simp at hmatch
  · rfl

theorem grow_target_size_max : grow_target SIZE_MAX = SIZE_MAX := by
  unfold grow_target
  rw [if_neg (by unfold SIZE_MAX; norm_num),
     if_pos (Nat.div_lt_self (by unfold SIZE_MAX; norm_num) (by unfold GROWTH_FACTOR; norm_num))]

/-- At size == capacity == SIZE_MAX, a push "succeeds" and the size_t
increment wraps the size to 0. -/
theorem push_wrap {v : Vector} {e : List Nat}
    (hs : v.size = SIZE_MAX) (hc : v.capacity = SIZE_MAX) :
    (vector_push v (some e)).1 = true ∧ (vector_push v (some e)).2.size = 0 ∧
    (vector_push v (some e)).2.capacity = SIZE_MAX := by
  have hwrap : w64 (SIZE_MAX + 1) = 0 := by
    have h1 : 0 < 2 ^ 64 := Nat.pos_pow_of_pos _ (by norm_num)
    have h2 : SIZE_MAX + 1 = 2 ^ 64 := by unfold SIZE_MAX; omega
    simp [w64, h2]
  have hg : grow_vector v = (true, v) := by
    unfold grow_vector
    rw [hc, grow_target_size_max]
    simp only [vector_reserve]
    rw [if_pos (by rw [hc])]
  simp only [vector_push]
  rw [if_pos (by rw [hs, hc]), hg]
  exact ⟨rfl, by simp [hs, hwrap], by simp [hc]⟩

theorem w64_size_max_succ : w64 (SIZE_MAX + 1) = 0 := by
  have h1 : 0 < 2 ^ 64 := Nat.pos_pow_of_pos _ (by norm_num)
  have h2 : SIZE_MAX + 1 = 2 ^ 64 := by unfold SIZE_MAX; omega
  simp [w64, h2]

/-- At capacity == SIZE_MAX the growth step is a saturating no-op success. -/
theorem grow_noop_at_size_max {v : Vector} (hc : v.capacity = SIZE_MAX) :
    grow_vector v = (true, v) := by
  unfold grow_vector
  rw [hc, grow_target_size_max]
  simp only [vector_reserve]
  rw [if_pos (by rw [hc])]

/-- At size == capacity == SIZE_MAX an insert at index 0 also reports
success while the size_t increment wraps the size to 0. -/
theorem insert_wrap {v : Vector} {e : List Nat}
    (hs : v.size = SIZE_MAX) (hc : v.capacity = SIZE_MAX) :
    (vector_insert v 0 (some e)).1 = true ∧ (vector_insert v 0 (some e)).2.size = 0 := by
  have hg : grow_vector v = (true, v) := grow_noop_at_size_max hc
  simp only [vector_insert]
  rw [if_neg (by omega), if_pos (by rw [hs, hc]), hg]
  exact ⟨rfl, by simp [hs, w64_size_max_succ]⟩

/-- Trajectory of many pushes of a 1-byte element under an always-succeeding
allocator oracle. -/
theorem pushAll_replicate_oracle : ∀ (n : Nat) (v : Vector) (e : List Nat),
    Inv v → v.elem_size = 1 → e.length = 1 →
    (∀ k s, v.alloc.allocOk k s = true) → (∀ k s, v.alloc.reallocOk k s = true) →
    v.size + n ≤ SIZE_MAX →
    ∃ w, pushAll v (List.replicate n e) = (true, w) ∧ Inv w ∧ w.size = v.size + n ∧
      w.elem_size = 1 ∧ (∀ k s, w.alloc.allocOk k s = true) ∧
      (∀ k s, w.alloc.reallocOk k s = true)
  | 0, v, e, hI, hes, he, hA, hR, hb => by
    exact ⟨v, by simp [pushAll], hI, by simp, hes, hA, hR⟩
  | n + 1, v, e, hI, hes, he, hA, hR, hb => by
    have hp1 : (vector_push v (some e)).1 = true :=
      push_succeeds_oracle hI hA hR (by rw [hes, Nat.mul_one]; exact grow_target_le _)
    rcases hp : vector_push v (some e) with ⟨b, v1⟩
    rw [hp] at hp1
    subst hp1
    have hps := push_true_spec hI (by rw [hes, he]) (by omega) hp
    obtain ⟨hI1, hs1, he1, _, _, _, _, hf4, hf5, _, _⟩ := hps
    have hih := pushAll_replicate_oracle n v1 e hI1 (by rw [he1, hes])
      he (by rw [hf4]; exact hA) (by rw [hf5]; exact hR) (by omega)
    obtain ⟨w, hrun, hIw, hsw, hew, hAw, hRw⟩ := hih
    refine ⟨w, ?_, hIw, by omega, hew, hAw, hRw⟩
    rw [List.replicate_succ]
    simp only [pushAll, hp]
    exact hrun

/-- Success specification for vector_insert: shifted reads, the new element
at its index, size incremented. -/
theorem insert_true_spec {v w : Vector} {idx : Nat} {e : List Nat}
    (hI : Inv v) (he : e.length = v.elem_size) (hsz : v.size < SIZE_MAX)
    (h : vector_insert v idx (some e) = (true, w)) :
    Inv w ∧ w.size = v.size + 1 ∧ w.elem_size = v.elem_size ∧
    (∀ j, j < idx → vector_get w j = vector_get v j) ∧
    vector_get w idx = e ∧
    (∀ j, idx ≤ j → j < v.size → vector_get w (j + 1) = vector_get v j) := by
  simp only [vector_insert] at h
  split at h
  · simp at h
  · next hidx' =>
    have hidx : idx ≤ v.size := by omega
    split at h
    · simp at h
    · next v1 hmatch =>
      simp at h
      have hv1 : Inv v1 ∧ v1.size = v.size ∧ v1.elem_size = v.elem_size ∧
          v.size < v1.capacity ∧
          (∀ i, i < v.size → vector_get v1 i = vector_get v i) := by
        split at hmatch
        · next hfull =>
          have hres := reserve_true_spec hI (by simpa [grow_vector] using hmatch)
          obtain ⟨hI1, hs1, he1, hc1, _, _, _, _, _, hr1⟩ := hres
          refine ⟨hI1, hs1, he1, ?_, hr1⟩
          rw [hc1]
          have h3 := lt_grow_target (c := v.capacity) (by omega)
          calc v.size = v.capacity := hfull
          _ < grow_target v.capacity := h3
          _ ≤ max v.capacity (grow_target v.capacity) := le_max_right _ _
        · next hnfull =>
          simp at hmatch
          subst hmatch
          have hsc := hI.1
          exact ⟨hI, rfl, rfl, by omega, fun i _ => rfl⟩
      obtain ⟨hI1, hs1, he1, hroom1, hr1⟩ := hv1
      obtain ⟨hsc1, hes1, hesm1, hha1, hprod1, hlen1, hdc1⟩ := hI1
      subst h
      rw [hs1] at hsc1 ⊢
      rw [he1] at hes1 hesm1 hprod1 hlen1 ⊢
      set es := v.elem_size with hes_def
      set buf := v1.data.getD [] with hbuf_def
      have hlenb : buf.length = v1.capacity * es := hlen1
      obtain ⟨d, hd⟩ : ∃ d, idx + d = v.size := ⟨v.size - idx, by omega⟩
      have hcapes : (v.size + 1) * es ≤ v1.capacity * es := Nat.mul_le_mul_right _ hroom1
      have hszesm : (v.size + 1) * es ≤ SIZE_MAX := le_trans hcapes hprod1
      have hmul : ∀ a b : Nat, (a + b) * es = a * es + b * es := fun a b => Nat.add_mul a b es
      have hmul1 : ∀ a : Nat, (a + 1) * es = a * es + es := fun a => by
        rw [Nat.add_mul, Nat.one_mul]
      have hm_idx : (idx + 1) * es = idx * es + es := hmul1 idx
      have hle_idx1 : (idx + 1) * es ≤ (v.size + 1) * es := Nat.mul_le_mul_right _ (by omega)
      have hw_idx : w64 (idx * es) = idx * es := w64_eq_of_le (by omega)
      have hw_idx1 : w64 ((idx + 1) * es) = (idx + 1) * es := w64_eq_of_le (by omega)
      have hle_shift : (v.size - idx) * es ≤ (v.size + 1) * es := Nat.mul_le_mul_right _ (by omega)
      have hw_shift : w64 ((v.size - idx) * es) = (v.size - idx) * es := w64_eq_of_le (by omega)
      have hsub : v.size - idx = d := by omega
      have hsum1 : idx * es + d * es = v.size * es := by rw [← hmul, hd]
      have hsum2 : (idx + 1) * es + d * es = (v.size + 1) * es := by
        rw [← hmul]
        congr 1
        omega
      have hsizele : v.size * es ≤ v1.capacity * es := Nat.mul_le_mul_right _ (by omega)
      have hidx_le : idx * es ≤ v1.capacity * es := Nat.mul_le_mul_right _ (by omega)
      set src := readBytes buf (idx * es) ((v.size - idx) * es) with hsrc_def
      have hsrclen : src.length = d * es := by
        rw [hsrc_def, hsub]
        exact readBytes_length (by omega)
      set moved := writeBytes buf (w64 ((idx + 1) * es)) (readBytes buf (w64 (idx * es)) (w64 ((v.size - idx) * es))) with hmoved_def
      have hmoved : moved = writeBytes buf ((idx + 1) * es) src := by
        rw [hmoved_def, hw_idx, hw_idx1, hw_shift, hsrc_def]
      have hmovedlen : moved.length = v1.capacity * es := by
        rw [hmoved, writeBytes_length (by rw [hsrclen, hlenb]; omega), hlenb]
      have hoff_moved : idx * es ≤ moved.length := by rw [hmovedlen]; omega
      have hbuf2len : (writeBytes moved (w64 (idx * es)) (cbytes es e)).length = v1.capacity * es := by
        rw [hw_idx, writeBytes_length (by rw [cbytes_length, hmovedlen]; omega), hmovedlen]
      have hcap_sm : v1.capacity ≤ SIZE_MAX := by
        have h1 : v1.capacity * 1 ≤ v1.capacity * es := Nat.mul_le_mul_left _ hes1
        have h2 : v1.capacity * 1 = v1.capacity := Nat.mul_one _
        omega
      have hs1w : w64 (v.size + 1) = v.size + 1 := w64_eq_of_le (by omega)
      refine ⟨⟨by simp [hs1w]; omega, hes1, hesm1, hha1, hprod1,
        by simp [bufLen, hbuf2len], by simp; omega⟩,
        by simp [hs1w], by simp, fun j hj => ?_, ?_, fun j hj1 hj2 => ?_⟩
      · -- j < idx : unaffected
        simp only [vector_get, Option.getD_some]
        have hjm : (j + 1) * es = j * es + es := hmul1 j
        have hjle : (j + 1) * es ≤ idx * es := Nat.mul_le_mul_right _ (by omega)
        have hjw : w64 (j * es) = j * es := w64_eq_of_le (by omega)
        rw [hjw, hw_idx]
        rw [readBytes_writeBytes_left hoff_moved (by omega), hmoved]
        rw [readBytes_writeBytes_left (by rw [hlenb]; omega) (by omega)]
        have hget : vector_get v1 j = readBytes buf (w64 (j * es)) es := by
          simp [vector_get, he1, hbuf_def, hes_def]
        rw [hjw] at hget
        rw [← hget, hr1 j (by omega)]
        rw [show vector_get v j = readBytes (v.data.getD []) (w64 (j * es)) v.elem_size from rfl,
          hjw]
      · -- j = idx : the new element
        simp only [vector_get, Option.getD_some]
        rw [hw_idx]
        have hself := @readBytes_writeBytes_self moved (cbytes es e)
          (idx * es) hoff_moved
        rw [cbytes_length] at hself
        rw [hself, cbytes_of_length he]
      · -- idx ≤ j < v.size : shifted up by one
        simp only [vector_get, Option.getD_some]
        obtain ⟨t, ht⟩ : ∃ t, idx + t = j := ⟨j - idx, by omega⟩
        have hjm : (j + 1) * es ≤ (v.size + 1) * es := Nat.mul_le_mul_right _ (by omega)
        have hjw : w64 ((j + 1) * es) = (j + 1) * es := w64_eq_of_le (by omega)
        rw [hjw, hw_idx]
        have hj1le : (idx + 1) * es ≤ (j + 1) * es := Nat.mul_le_mul_right _ (by omega)
        rw [readBytes_writeBytes_right hoff_moved (by rw [cbytes_length]; omega), hmoved]
        have hj1 : (j + 1) * es = (idx + 1) * es + t * es := by
          rw [← hmul]
          congr 1
          omega
        have htd : t + 1 ≤ d := by omega
        have htm : (t + 1) * es = t * es + es := hmul1 t
        have htdm : (t + 1) * es ≤ d * es := Nat.mul_le_mul_right _ htd
        have hinside := @readBytes_writeBytes_inside buf src
          ((idx + 1) * es) (t * es) es
          (by rw [hlenb]; omega)
          (by rw [hsrclen]; omega)
        rw [hj1, hinside, hsrc_def, hsub]
        rw [readBytes_readBytes (by omega)]
        have hoff2 : idx * es + t * es = j * es := by rw [← hmul, ht]
        rw [hoff2]
        have hjw2 : w64 (j * es) = j * es := w64_eq_of_le (by omega)
        have hget : vector_get v1 j = readBytes buf (w64 (j * es)) es := by
          simp [vector_get, he1, hbuf_def, hes_def]
        rw [hjw2] at hget
        rw [← hget, hr1 j (by omega)]
        rfl

/-- Failure of vector_erase on an out-of-range index: no mutation. -/
theorem erase_out_of_range {v : Vector} {idx : Nat} (hidx : v.size ≤ idx) :
    vector_erase v idx = (false, v) := by
  simp only [vector_erase]
  rw [if_pos hidx]

/-- Success specification for vector_erase: shifted-down reads, size
decremented. -/
theorem erase_true_spec {v : Vector} {idx : Nat} (hI : Inv v) (hidx : idx < v.size) :
    (vector_erase v idx).1 = true ∧ Inv (vector_erase v idx).2 ∧
    (vector_erase v idx).2.size = v.size - 1 ∧
    (vector_erase v idx).2.elem_size = v.elem_size ∧
    (vector_erase v idx).2.capacity = v.capacity ∧
    (∀ j, j < idx → vector_get (vector_erase v idx).2 j = vector_get v j) ∧
    (∀ j, idx ≤ j → j < v.size - 1 →
      vector_get (vector_erase v idx).2 j = vector_get v (j + 1)) := by
  obtain ⟨hsc, hes, hesm, hha, hprod, hlen, hdc⟩ := hI
  simp only [vector_erase]
  rw [if_neg (by omega)]
  set es := v.elem_size with hes_def
  set buf := v.data.getD [] with hbuf_def
  have hlenb : buf.length = v.capacity * es := hlen
  obtain ⟨d, hd⟩ : ∃ d, idx + 1 + d = v.size := ⟨v.size - idx - 1, by omega⟩
  have hmul : ∀ a b : Nat, (a + b) * es = a * es + b * es := fun a b => Nat.add_mul a b es
  have hmul1 : ∀ a : Nat, (a + 1) * es = a * es + es := fun a => by
    rw [Nat.add_mul, Nat.one_mul]
  have hszcap : v.size * es ≤ v.capacity * es := Nat.mul_le_mul_right _ hsc
  have hszsm : v.size * es ≤ SIZE_MAX := le_trans hszcap hprod
  have hm_idx : (idx + 1) * es = idx * es + es := hmul1 idx
  have hle_idx1 : (idx + 1) * es ≤ v.size * es := Nat.mul_le_mul_right _ (by omega)
  have hw_idx : w64 (idx * es) = idx * es := w64_eq_of_le (by omega)
  have hw_idx1 : w64 ((idx + 1) * es) = (idx + 1) * es := w64_eq_of_le (by omega)
  have hsub : v.size - idx - 1 = d := by omega
  have hsum1 : (idx + 1) * es + d * es = v.size * es := by rw [← hmul, hd]
  have hle_d : d * es ≤ v.size * es := Nat.mul_le_mul_right _ (by omega)
  have hw_d : w64 ((v.size - idx - 1) * es) = (v.size - idx - 1) * es := by
    rw [hsub]
    exact w64_eq_of_le (by omega)
  set src := readBytes buf ((idx + 1) * es) (d * es) with hsrc_def
  have hsrclen : src.length = d * es := by
    rw [hsrc_def]
    exact readBytes_length (by omega)
  have hbuf2 : writeBytes buf (w64 (idx * es))
      (readBytes buf (w64 ((idx + 1) * es)) (w64 ((v.size - idx - 1) * es)))
      = writeBytes buf (idx * es) src := by
    rw [hw_idx, hw_idx1, hw_d, hsub, hsrc_def]
  have hbuf2len : (writeBytes buf (idx * es) src).length = v.capacity * es := by
    rw [writeBytes_length (by rw [hsrclen, hlenb]; omega), hlenb]
  refine ⟨rfl, ⟨by simp; omega, hes, hesm, hha, hprod, ?_, by simp; omega⟩,
    by simp, by simp, by simp, fun j hj => ?_, fun j hj1 hj2 => ?_⟩
  · simp only [bufLen, Option.getD_some]
    rw [hbuf2, hbuf2len]
  · -- j < idx
    simp only [vector_get, Option.getD_some]
    rw [hbuf2]
    have hjm : (j + 1) * es = j * es + es := hmul1 j
    have hjle : (j + 1) * es ≤ idx * es := Nat.mul_le_mul_right _ (by omega)
    have hjw : w64 (j * es) = j * es := w64_eq_of_le (by omega)
    rw [hjw]
    rw [readBytes_writeBytes_left (by rw [hlenb]; omega) (by omega)]
  · -- idx ≤ j < v.size - 1
    simp only [vector_get, Option.getD_some]
    rw [hbuf2]
    obtain ⟨t, ht⟩ : ∃ t, idx + t = j := ⟨j - idx, by omega⟩
    have hjm : j * es ≤ v.size * es := Nat.mul_le_mul_right _ (by omega)
    have hjw : w64 (j * es) = j * es := w64_eq_of_le (by omega)
    rw [hjw]
    have hjeq : j * es = idx * es + t * es := by rw [← hmul, ht]
    have htd : t + 1 ≤ d := by omega
    have htm : (t + 1) * es = t * es + es := hmul1 t
    have htdm : (t + 1) * es ≤ d * es := Nat.mul_le_mul_right _ htd
    have hinside := @readBytes_writeBytes_inside buf src
      (idx * es) (t * es) es
      (by rw [hlenb]; omega)
      (by rw [hsrclen]; omega)
    rw [hjeq, hinside, hsrc_def]
    rw [readBytes_readBytes (by omega)]
    have hoff2 : (idx + 1) * es + t * es = (j + 1) * es := by
      rw [← hmul]
      congr 1
      omega
    rw [hoff2]
    have hj1m : (j + 1) * es ≤ v.size * es := Nat.mul_le_mul_right _ (by omega)
    have hjw2 : w64 ((j + 1) * es) = (j + 1) * es := w64_eq_of_le (by omega)
    simp [vector_get, hjw2, hbuf_def, hes_def]

theorem callAlloc_snd (a : Allocator) (sz : Nat) :
    (a.callAlloc sz).2 = { a with nCalls := a.nCalls + 1 } := by
  unfold Allocator.callAlloc
  split <;> rfl

theorem callRealloc_snd (a : Allocator) (old : List Nat) (sz : Nat) :
    (a.callRealloc old sz).2
      = { a with nCalls := a.nCalls + 1, reallocCalls := a.reallocCalls + 1 } := by
  unfold Allocator.callRealloc
  split <;> rfl

/-- Success specification for vector_shrink_to_fit: capacity becomes size,
elements preserved, storage released entirely when empty. -/
theorem shrink_true_spec {v w : Vector} (hI : Inv v)
    (h : vector_shrink_to_fit v = (true, w)) :
    Inv w ∧ w.size = v.size ∧ w.elem_size = v.elem_size ∧ w.capacity = v.size ∧
    (∀ i, i < v.size → vector_get w i = vector_get v i) ∧
    (v.size = 0 → w.data = none) := by
  obtain ⟨hsc, hes, hesm, hha, hprod, hlen, hdc⟩ := hI
  have hlen' : (v.data.getD []).length = v.capacity * v.elem_size := hlen
  have hszes : v.size * v.elem_size ≤ v.capacity * v.elem_size := Nat.mul_le_mul_right _ hsc
  have hwsz : w64 (v.size * v.elem_size) = v.size * v.elem_size := w64_eq_of_le (by omega)
  have hread : ∀ i, i < v.size → i * v.elem_size + v.elem_size ≤ v.size * v.elem_size := by
    intro i hi
    have h1 : (i + 1) * v.elem_size ≤ v.size * v.elem_size := Nat.mul_le_mul_right _ hi
    have h2 : (i + 1) * v.elem_size = i * v.elem_size + v.elem_size := by
      rw [Nat.add_mul, Nat.one_mul]
    omega
  have hwoff : ∀ i, i < v.size → w64 (i * v.elem_size) = i * v.elem_size := fun i hi =>
    w64_eq_of_le (by have := hread i hi; omega)
  simp only [vector_shrink_to_fit] at h
  split at h
  · next heqc =>
    simp at h
    subst h
    refine ⟨⟨hsc, hes, hesm, hha, hprod, hlen, hdc⟩, rfl, rfl, heqc.symm,
      fun i _ => rfl, fun h0 => hdc.mpr (by omega)⟩
  · next hneq =>
    split at h
    · next hz =>
      simp at h
      subst h
      refine ⟨⟨by simp; omega, hes, hesm, ?_, by simp, by simp [bufLen], by simp⟩,
        by simp [hz], by simp, by simp [hz], fun i hi => by omega, fun _ => by simp⟩
      split <;> simp [Allocator.callFree, hha]
    · next hz =>
      have hszpos : 0 < v.size := by omega
      have hcappos : v.size < v.capacity := by omega
      split at h
      · -- realloc path
        next hre =>
        rw [hwsz] at h
        split at h
        · next p a2 heq =>
          simp only [Allocator.callRealloc] at heq
          split at heq
          · simp at heq
            obtain ⟨hp, ha2⟩ := heq
            simp at h
            subst h
            have hp2 : p = (v.data.getD []).take (v.size * v.elem_size) := by
              rw [← hp, hlen']
              have h0 : v.size * v.elem_size - v.capacity * v.elem_size = 0 := by omega
              rw [h0]
              simp
            have hplen : p.length = v.size * v.elem_size := by
              rw [hp2, List.length_take, hlen']
              exact min_eq_left hszes
            refine ⟨⟨by simp, hes, hesm, by simp [← ha2, hha], by simp; omega,
              by simp [bufLen, hplen], by simp; omega⟩,
              rfl, rfl, by simp, fun i hi => ?_, fun h0 => by omega⟩
            simp only [vector_get, Option.getD_some]
            rw [hwoff i hi, hp2, readBytes_take (hread i hi)]
          · simp at heq
        · simp at h
      · -- allocate-and-copy path
        rw [hwsz] at h
        split at h
        · simp at h
        · next newBlock a2 heq =>
          simp only [Allocator.callAlloc] at heq
          split at heq
          · simp at heq
            obtain ⟨hnb, ha2⟩ := heq
            simp at h
            subst h
            have hsrclen : (readBytes (v.data.getD []) 0 (v.size * v.elem_size)).length
                = v.size * v.elem_size := readBytes_length (by omega)
            have hclen : (writeBytes newBlock 0 (readBytes (v.data.getD []) 0 (v.size * v.elem_size))).length
                = v.size * v.elem_size := by
              rw [writeBytes_length (by rw [hsrclen, ← hnb]; simp), ← hnb]
              simp
            refine ⟨⟨by simp, hes, hesm, ?_, by simp; omega,
              by simp [bufLen, hclen], by simp; omega⟩,
              rfl, rfl, by simp, fun i hi => ?_, fun h0 => by omega⟩
            · split <;> simp [Allocator.callFree, ← ha2, hha]
            · simp only [vector_get, Option.getD_some]
              rw [hwoff i hi]
              have hin := @readBytes_writeBytes_inside newBlock
                (readBytes (v.data.getD []) 0 (v.size * v.elem_size))
                0 (i * v.elem_size) (v.elem_size)
                (by omega) (by rw [hsrclen]; exact hread i hi)
              rw [Nat.zero_add] at hin
              rw [hin, readBytes_readBytes (hread i hi), Nat.zero_add]
          · simp at heq

/-- vector_shrink_to_fit is a no-op success when size == capacity. -/
theorem shrink_noop {v : Vector} (h : v.size = v.capacity) :
    vector_shrink_to_fit v = (true, v) := by
  simp only [vector_shrink_to_fit]
  rw [if_pos h]

/-- The absent reallocate / release slots are not invoked by
vector_shrink_to_fit. -/
theorem shrink_counters_alloc_only {v : Vector} (hR : v.alloc.hasRealloc = false)
    (hF : v.alloc.hasFree = false) :
    (vector_shrink_to_fit v).2.alloc.reallocCalls = v.alloc.reallocCalls ∧
    (vector_shrink_to_fit v).2.alloc.freeCalls = v.alloc.freeCalls := by
  simp only [vector_shrink_to_fit]
  split
  · exact ⟨rfl, rfl⟩
  · split
    · simp [hF]
    · rw [if_neg (by simp [hR])]
      split
      · split
        · next a2 heq =>
          have h2 : a2 = { v.alloc with nCalls := v.alloc.nCalls + 1 } :=
            (congrArg Prod.snd heq).symm.trans (callAlloc_snd _ _)
          simp [h2]
        · next nb a2 heq =>
          have h2 : a2 = { v.alloc with nCalls := v.alloc.nCalls + 1 } :=
            (congrArg Prod.snd heq).symm.trans (callAlloc_snd _ _)
          simp [hF, h2]
      · exact ⟨rfl, rfl⟩

/-- vector_shrink_to_fit succeeds for an allocate-only allocator whose
allocate always succeeds. -/
theorem shrink_succeeds_alloc_only {v : Vector} (hI : Inv v)
    (hR : v.alloc.hasRealloc = false) (hA : ∀ k s, v.alloc.allocOk k s = true) :
    (vector_shrink_to_fit v).1 = true := by
  simp only [vector_shrink_to_fit]
  split
  · rfl
  · split
    · rfl
    · rw [if_neg (by simp [hR]), if_pos hI.2.2.2.1]
      simp [Allocator.callAlloc, hA]

/-- The absent reallocate / release slots are not invoked by vector_reserve. -/
theorem reserve_counters_alloc_only {v : Vector} {nc : Nat}
    (hR : v.alloc.hasRealloc = false) (hF : v.alloc.hasFree = false) :
    (vector_reserve v nc).2.alloc.reallocCalls = v.alloc.reallocCalls ∧
    (vector_reserve v nc).2.alloc.freeCalls = v.alloc.freeCalls := by
  simp only [vector_reserve]
  split
  · exact ⟨rfl, rfl⟩
  · split
    · exact ⟨rfl, rfl⟩
    · rw [if_neg (by simp [hR])]
      split
      · next a2 heq =>
        have h2 : a2 = { v.alloc with nCalls := v.alloc.nCalls + 1 } :=
          (congrArg Prod.snd heq).symm.trans (callAlloc_snd _ _)
        simp [h2]
      · next nb a2 heq =>
        have h2 : a2 = { v.alloc with nCalls := v.alloc.nCalls + 1 } :=
          (congrArg Prod.snd heq).symm.trans (callAlloc_snd _ _)
        split
        · simp [hF, h2]
        · simp [h2]

/-- vector_reserve succeeds through the allocate-and-copy fallback for an
allocate-only allocator, for any representable request. -/
theorem reserve_succeeds_alloc_only {v : Vector} {nc : Nat} (hI : Inv v)
    (hR : v.alloc.hasRealloc = false) (hA : ∀ k s, v.alloc.allocOk k s = true)
    (hnc : nc * v.elem_size ≤ SIZE_MAX) :
    (vector_reserve v nc).1 = true := by
  have hes := hI.2.1
  simp only [vector_reserve]
  split
  · rfl
  · split
    · next hover =>
      exfalso
      obtain ⟨-, hdiv⟩ := hover
      have := (Nat.div_lt_iff_lt_mul hes).mp hdiv
      omega
    · rw [if_neg (by simp [hR])]
      simp [Allocator.callAlloc, hA]
      split <;> rfl

/-- C1: every mutating operation (reserve, push, insert, erase, pop,
shrink_to_fit) on a valid live vector that returns failure leaves the
observable state — size, capacity, and the element bytes at every index
below size — exactly as it was before the call. -/
theorem C1_failure_atomicity (v : Vector) (nc idx : Nat) (e : Option (List Nat))
    (hv : vector_is_valid v = true) :
    ((vector_reserve v nc).1 = false → obsEq v (vector_reserve v nc).2) ∧
    ((vector_push v e).1 = false → obsEq v (vector_push v e).2) ∧
    ((vector_insert v idx e).1 = false → obsEq v (vector_insert v idx e).2) ∧
    ((vector_erase v idx).1 = false → obsEq v (vector_erase v idx).2) ∧
    ((vector_pop v).1 = false → obsEq v (vector_pop v).2) ∧
    ((vector_shrink_to_fit v).1 = false → obsEq v (vector_shrink_to_fit v).2) := by
  refine ⟨fun hf => ?_, fun hf => ?_, fun hf => ?_, fun hf => ?_, fun hf => ?_, fun hf => ?_⟩
  · rcases hE : vector_reserve v nc with ⟨b, w⟩
    cases b
    · obtain ⟨a2, ha⟩ := reserve_false_frame hE
      subst ha
      exact obsEq_of_frame rfl rfl rfl rfl
    · exact absurd hf (by simp [hE])
  · rcases hE : vector_push v e with ⟨b, w⟩
    cases b
    · obtain ⟨a2, ha⟩ := push_false_frame hE
      subst ha
      exact obsEq_of_frame rfl rfl rfl rfl
    · exact absurd hf (by simp [hE])
  · rcases hE : vector_insert v idx e with ⟨b, w⟩
    cases b
    · obtain ⟨a2, ha⟩ := insert_false_frame hE
      subst ha
      exact obsEq_of_frame rfl rfl rfl rfl
    · exact absurd hf (by simp [hE])
  · rcases hE : vector_erase v idx with ⟨b, w⟩
    cases b
    · have hv2 := erase_false_frame hE
      subst hv2
      exact obsEq_of_frame rfl rfl rfl rfl
    · exact absurd hf (by simp [hE])
  · rcases hE : vector_pop v with ⟨b, w⟩
    cases b
    · have hv2 := pop_false_frame hE
      subst hv2
      exact obsEq_of_frame rfl rfl rfl rfl
    · exact absurd hf (by simp [hE])
  · rcases hE : vector_shrink_to_fit v with ⟨b, w⟩
    cases b
    · obtain ⟨a2, ha⟩ := shrink_false_frame hE
      subst ha
      exact obsEq_of_frame rfl rfl rfl rfl
    · exact absurd hf (by simp [hE])

theorem C1_failure_atomicity_witness :
    vector_is_valid vexhausted = true ∧
    (((vector_reserve vexhausted 5).1 = false → obsEq vexhausted (vector_reserve vexhausted 5).2) ∧
     ((vector_push vexhausted (some [7])).1 = false → obsEq vexhausted (vector_push vexhausted (some [7])).2) ∧
     ((vector_insert vexhausted 0 (some [7])).1 = false → obsEq vexhausted (vector_insert vexhausted 0 (some [7])).2) ∧
     ((vector_erase vexhausted 0).1 = false → obsEq vexhausted (vector_erase vexhausted 0).2) ∧
     ((vector_pop vexhausted).1 = false → obsEq vexhausted (vector_pop vexhausted).2) ∧
     ((vector_shrink_to_fit vexhausted).1 = false → obsEq vexhausted (vector_shrink_to_fit vexhausted).2)) :=
  ⟨by decide, C1_failure_atomicity vexhausted 5 0 (some [7]) (by decide)⟩

/-- C2 counterexample: with 1-byte elements and an always-succeeding
allocator, a sequence of 2^64 pushes reports success on every call, yet the
final size is not 2^64 — the size_t increment wraps to 0 on the last push. -/
theorem C2_counterexample :
    (pushAll (vector_init okAllocator 1) (List.replicate (2 ^ 64) [0])).1 = true ∧
    (pushAll (vector_init okAllocator 1) (List.replicate (2 ^ 64) [0])).2.size ≠
      (List.replicate (2 ^ 64) ([0] : List Nat)).length := by
  have hI0 : Inv (vector_init okAllocator 1) :=
    ⟨Nat.le_refl 0, Nat.one_pos, by decide, rfl, Nat.zero_le _, rfl,
     by simp [vector_init]⟩
  obtain ⟨w, hrun, hIw, hsw, hew, hAw, hRw⟩ :=
    pushAll_replicate_oracle SIZE_MAX (vector_init okAllocator 1) [0] hI0 rfl rfl
      (fun _ _ => rfl) (fun _ _ => rfl) (by simp [vector_init])
  have hs0 : w.size = SIZE_MAX := by simpa [vector_init] using hsw
  have hcap : w.capacity = SIZE_MAX := by
    have h1 := hIw.1
    have h2 := hIw.2.2.2.2.1
    rw [hew, Nat.mul_one] at h2
    omega
  have hwrap := push_wrap (v := w) (e := [0]) hs0 hcap
  have h64 : (2 : Nat) ^ 64 = SIZE_MAX + 1 := by
    have hp : 0 < 2 ^ 64 := Nat.pos_pow_of_pos _ (by norm_num)
    unfold SIZE_MAX
    omega
  rw [h64, List.replicate_succ', pushAll_append _ _ _ _ hrun]
  rcases hp : vector_push w (some [0]) with ⟨b, v1⟩
  rw [hp] at hwrap
  obtain ⟨hb, hv1, -⟩ := hwrap
  simp only at hb hv1
  subst hb
  refine ⟨by simp [pushAll, hp], ?_⟩
  simp only [pushAll, hp, List.length_append, List.length_replicate, hv1]
  omega

/-- C2 (amended): for every sequence of n ≤ SIZE_MAX successful pushes on a
freshly constructed vector, the size afterwards equals n and the element
readable at index i is the (i+1)-th pushed value. (The bound is forced by
the size_t wrap-around exhibited in the counterexample.) -/
theorem C2_push_sequence (a : Allocator) (es : Nat) (xs : List (List Nat))
    (hes : 0 < es) (hesm : es ≤ SIZE_MAX) (hha : a.hasAlloc = true)
    (hlen : ∀ x ∈ xs, x.length = es) (hn : xs.length ≤ SIZE_MAX)
    (hrun : (pushAll (vector_init a es) xs).1 = true) :
    (pushAll (vector_init a es) xs).2.size = xs.length ∧
    ∀ i, i < xs.length →
      vector_get (pushAll (vector_init a es) xs).2 i = xs.getD i [] := by
  rcases hE : pushAll (vector_init a es) xs with ⟨b, w⟩
  rw [hE] at hrun
  simp only at hrun
  subst hrun
  have hI0 : Inv (vector_init a es) :=
    ⟨le_refl 0, hes, hesm, hha, by simp [vector_init], by simp [bufLen, vector_init],
     by simp [vector_init]⟩
  have hsp := pushAll_true_spec xs (vector_init a es) w hI0 hlen
    (by simpa [vector_init] using hn) hE
  obtain ⟨-, hsw, -, -, hjw⟩ := hsp
  refine ⟨by simpa [vector_init] using hsw, fun i hi => ?_⟩
  have := hjw i hi
  simpa [vector_init] using this

theorem C2_push_sequence_witness :
    (0 < 4 ∧ 4 ≤ SIZE_MAX ∧ okAllocator.hasAlloc = true ∧
     (∀ x ∈ [[1, 2, 3, 4], [5, 6, 7, 8]], List.length x = 4) ∧
     ([[1, 2, 3, 4], [5, 6, 7, 8]] : List (List Nat)).length ≤ SIZE_MAX ∧
     (pushAll (vector_init okAllocator 4) [[1, 2, 3, 4], [5, 6, 7, 8]]).1 = true) ∧
    ((pushAll (vector_init okAllocator 4) [[1, 2, 3, 4], [5, 6, 7, 8]]).2.size
       = ([[1, 2, 3, 4], [5, 6, 7, 8]] : List (List Nat)).length ∧
     ∀ i, i < ([[1, 2, 3, 4], [5, 6, 7, 8]] : List (List Nat)).length →
       vector_get (pushAll (vector_init okAllocator 4) [[1, 2, 3, 4], [5, 6, 7, 8]]).2 i
         = [[1, 2, 3, 4], [5, 6, 7, 8]].getD i []) :=
  ⟨⟨by decide, by decide, rfl, by decide, by decide, by decide⟩,
   C2_push_sequence okAllocator 4 [[1, 2, 3, 4], [5, 6, 7, 8]] (by decide) (by decide)
     rfl (by decide) (by decide) (by decide)⟩

/-- C3: the growth step targets 8 from capacity 0 and otherwise doubles the
capacity, saturating at SIZE_MAX instead of wrapping; concretely, 8 pushes
of a 4-byte element into a fresh vector give capacity 8 and a 9th push
gives capacity 16. -/
theorem C3_growth_policy :
    (∀ c, c ≤ SIZE_MAX →
      grow_target c = if c = 0 then 8 else min (c * GROWTH_FACTOR) SIZE_MAX) ∧
    (pushAll (vector_init okAllocator 4) (List.replicate 8 [0, 0, 0, 0])).2.capacity = 8 ∧
    (pushAll (vector_init okAllocator 4) (List.replicate 8 [0, 0, 0, 0])).2.size = 8 ∧
    (pushAll (vector_init okAllocator 4) (List.replicate 9 [0, 0, 0, 0])).2.capacity = 16 := by
  refine ⟨fun c hc => ?_, by decide, by decide, by decide⟩
  have hS : SIZE_MAX = 18446744073709551615 := by norm_num [SIZE_MAX]
  unfold grow_target GROWTH_FACTOR
  split
  · rfl
  · next h0 =>
    split
    · next hbig =>
      have h1 : SIZE_MAX ≤ c * 2 := by
        rw [hS] at hbig ⊢
        omega
      exact (min_eq_right h1).symm
    · next hsmall =>
      have h2 : c * 2 ≤ SIZE_MAX := by
        rw [hS] at hsmall ⊢
        rw [hS] at hc
        omega
      rw [w64_eq_of_le h2]
      exact (min_eq_left h2).symm

theorem C3_growth_policy_witness :
    (5 ≤ SIZE_MAX ∧
      grow_target 5 = if (5 : Nat) = 0 then 8 else min (5 * GROWTH_FACTOR) SIZE_MAX) ∧
    (0 ≤ SIZE_MAX ∧
      grow_target 0 = if (0 : Nat) = 0 then 8 else min (0 * GROWTH_FACTOR) SIZE_MAX) :=
  ⟨⟨by decide, C3_growth_policy.1 5 (by decide)⟩,
   ⟨by decide, C3_growth_policy.1 0 (by decide)⟩⟩


/-- C4 counterexample: the claim's unconditional success fails in two ways.
On a valid fresh vector bound to an exhausted allocator, insert at index 0
(with index ≤ size and a present element) returns failure because the
growth step fails; and at the valid live state size == capacity == SIZE_MAX
insert reports success but the size_t increment wraps the size to 0 instead
of increasing it by one. -/
theorem C4_counterexample :
    (vector_is_valid (vector_init failAllocator 4) = true ∧
     0 ≤ (vector_init failAllocator 4).size ∧
     (vector_insert (vector_init failAllocator 4) 0 (some [1, 2, 3, 4])).1 = false) ∧
    (vector_is_valid vwrap = true ∧ Inv vwrap ∧ 0 ≤ vwrap.size ∧
     (vector_insert vwrap 0 (some [7])).1 = true ∧
     (vector_insert vwrap 0 (some [7])).2.size = 0 ∧
     vwrap.size + 1 ≠ 0) := by
  refine ⟨by decide, ?_, ?_, Nat.zero_le _, (insert_wrap rfl rfl).1, (insert_wrap rfl rfl).2, ?_⟩
  · show (true && (SIZE_MAX == 0 || (vwrap.data).isSome) && true && true) = true
    simp [vwrap]
  · refine ⟨le_refl _, Nat.one_pos, ?_, rfl, ?_, ?_, ?_⟩
    · show (1 : Nat) ≤ SIZE_MAX
      decide
    · show SIZE_MAX * 1 ≤ SIZE_MAX
      simp
    · show (List.replicate SIZE_MAX (0 : Nat)).length = SIZE_MAX * 1
      simp
    · show some (List.replicate SIZE_MAX (0 : Nat)) = none ↔ SIZE_MAX = 0
      constructor
      · intro hcontra
        exact absurd hcontra (by simp)
      · intro hcontra
        exact absurd hcontra (by decide)
  · show SIZE_MAX + 1 ≠ 0
    decide

/-- C4 (amended): on a valid live vector with size < SIZE_MAX, with
index ≤ size and a present element, vector_insert succeeds provided any
needed growth succeeds — in particular always when size < capacity — and
then elements at [index, size) move one slot up, the element is readable at
index, and size increases by one; with index > size it fails with no
mutation.  (The counterexample forces both changes: the unconditional
"succeeds" fails when the internal growth step fails, and without the size
bound the size_t increment wraps to 0 at size == SIZE_MAX instead of
increasing by one.) -/
theorem C4_insert_spec (v : Vector) (idx : Nat) (e : List Nat)
    (hI : Inv v) (he : e.length = v.elem_size) (hsz : v.size < SIZE_MAX) :
    ((vector_insert v idx (some e)).1 = true →
      (vector_insert v idx (some e)).2.size = v.size + 1 ∧
      vector_get (vector_insert v idx (some e)).2 idx = e ∧
      (∀ j, j < idx → vector_get (vector_insert v idx (some e)).2 j = vector_get v j) ∧
      (∀ j, idx ≤ j → j < v.size →
        vector_get (vector_insert v idx (some e)).2 (j + 1) = vector_get v j)) ∧
    (v.size < v.capacity → idx ≤ v.size → (vector_insert v idx (some e)).1 = true) ∧
    (v.size < idx → vector_insert v idx (some e) = (false, v)) := by
  refine ⟨fun hs => ?_, fun hlt hidx2 => ?_, fun hgt => ?_⟩
  · rcases hE : vector_insert v idx (some e) with ⟨b, w⟩
    rw [hE] at hs
    simp only at hs
    subst hs
    obtain ⟨-, hsw, -, hlow, hat, hhigh⟩ := insert_true_spec hI he hsz hE
    exact ⟨by simp [hE, hsw], by simp [hE, hat], fun j hj => by simp [hE, hlow j hj],
      fun j hj1 hj2 => by simp [hE, hhigh j hj1 hj2]⟩
  · simp only [vector_insert]
    rw [if_neg (by omega), if_neg (by omega)]
  · simp only [vector_insert]
    rw [if_pos hgt]

theorem C4_insert_spec_witness :
    (Inv vthree ∧ ([9, 9, 9, 9] : List Nat).length = vthree.elem_size ∧
     vthree.size < SIZE_MAX) ∧
    (vthree.size < vthree.capacity → 1 ≤ vthree.size →
      (vector_insert vthree 1 (some [9, 9, 9, 9])).1 = true) :=
  ⟨⟨by decide, by decide, by decide⟩,
   (C4_insert_spec vthree 1 [9, 9, 9, 9] (by decide) (by decide) (by decide)).2.1⟩

/-- C5: for a valid live vector, vector_erase(index) with index < size
succeeds, moving each element of [index+1, size) one slot down, decreasing
size by exactly one and leaving elements below index unchanged; with
index >= size it fails with no mutation. -/
theorem C5_erase_spec (v : Vector) (idx : Nat) (hI : Inv v) :
    (idx < v.size →
      (vector_erase v idx).1 = true ∧
      (vector_erase v idx).2.size = v.size - 1 ∧
      (∀ j, j < idx → vector_get (vector_erase v idx).2 j = vector_get v j) ∧
      (∀ j, idx ≤ j → j < v.size - 1 →
        vector_get (vector_erase v idx).2 j = vector_get v (j + 1))) ∧
    (v.size ≤ idx → vector_erase v idx = (false, v)) := by
  refine ⟨fun hidx => ?_, erase_out_of_range⟩
  obtain ⟨h1, -, h3, -, -, h6, h7⟩ := erase_true_spec hI hidx
  exact ⟨h1, h3, h6, h7⟩

theorem C5_erase_spec_witness :
    (Inv vfour ∧ 2 < vfour.size) ∧
    ((vector_erase vfour 2).1 = true ∧
     (vector_erase vfour 2).2.size = vfour.size - 1 ∧
     (∀ j, j < 2 → vector_get (vector_erase vfour 2).2 j = vector_get vfour j) ∧
     (∀ j, 2 ≤ j → j < vfour.size - 1 →
       vector_get (vector_erase vfour 2).2 j = vector_get vfour (j + 1))) :=
  ⟨⟨by decide, by decide⟩, (C5_erase_spec vfour 2 (by decide)).1 (by decide)⟩

/-- C6: vector_reserve fails with no allocation and no mutation whenever
target_capacity * elem_size would exceed SIZE_MAX, and the division-based
check it uses (performed before any multiplication) is exactly equivalent
to that overflow condition. -/
theorem C6_reserve_overflow (v : Vector) (nc : Nat) (hI : Inv v)
    (hnc : nc ≤ SIZE_MAX) (hover : SIZE_MAX < nc * v.elem_size) :
    vector_reserve v nc = (false, v) ∧
    (vector_reserve v nc).2.alloc.nCalls = v.alloc.nCalls ∧
    (SIZE_MAX / v.elem_size < nc ↔ SIZE_MAX < nc * v.elem_size) := by
  obtain ⟨hsc, hes, hesm, hha, hprod, hlen, hdc⟩ := hI
  have hdiv : SIZE_MAX / v.elem_size < nc ↔ SIZE_MAX < nc * v.elem_size :=
    Nat.div_lt_iff_lt_mul hes
  have hcaplt : v.capacity < nc := by
    by_contra hcon
    push_neg at hcon
    have := Nat.mul_le_mul_right v.elem_size hcon
    omega
  have hE : vector_reserve v nc = (false, v) := by
    simp only [vector_reserve]
    rw [if_neg (by omega), if_pos ⟨by omega, hdiv.mpr hover⟩]
  exact ⟨hE, by rw [hE], hdiv⟩

theorem C6_reserve_overflow_witness :
    (Inv vthree ∧ SIZE_MAX ≤ SIZE_MAX ∧ SIZE_MAX < SIZE_MAX * vthree.elem_size) ∧
    vector_reserve vthree SIZE_MAX = (false, vthree) :=
  ⟨⟨by decide, by decide, by decide⟩,
   (C6_reserve_overflow vthree SIZE_MAX (by decide) (by decide) (by decide)).1⟩

/-- C7: with an allocator that provides only allocate, growth and shrink
succeed through the allocate-then-copy fallback, preserving the stored
elements, and the absent reallocate and release slots are never invoked;
concretely, pushing 20 4-byte elements into a fresh arena-backed vector
succeeds with no reallocate or release call. -/
theorem C7_alloc_only_fallback :
    (∀ v nc, Inv v → v.alloc.hasRealloc = false → v.alloc.hasFree = false →
      (∀ k s, v.alloc.allocOk k s = true) → nc * v.elem_size ≤ SIZE_MAX →
      (vector_reserve v nc).1 = true ∧
      (vector_reserve v nc).2.alloc.reallocCalls = v.alloc.reallocCalls ∧
      (vector_reserve v nc).2.alloc.freeCalls = v.alloc.freeCalls ∧
      (∀ i, i < v.size → vector_get (vector_reserve v nc).2 i = vector_get v i)) ∧
    (∀ v, Inv v → v.alloc.hasRealloc = false → v.alloc.hasFree = false →
      (∀ k s, v.alloc.allocOk k s = true) →
      (vector_shrink_to_fit v).1 = true ∧
      (vector_shrink_to_fit v).2.alloc.reallocCalls = v.alloc.reallocCalls ∧
      (vector_shrink_to_fit v).2.alloc.freeCalls = v.alloc.freeCalls ∧
      (∀ i, i < v.size → vector_get (vector_shrink_to_fit v).2 i = vector_get v i)) ∧
    ((pushAll (vector_init arenaAllocator 4) (List.replicate 20 [7, 0, 0, 0])).1 = true ∧
     (pushAll (vector_init arenaAllocator 4) (List.replicate 20 [7, 0, 0, 0])).2.size = 20 ∧
     (pushAll (vector_init arenaAllocator 4) (List.replicate 20 [7, 0, 0, 0])).2.alloc.reallocCalls = 0 ∧
     (pushAll (vector_init arenaAllocator 4) (List.replicate 20 [7, 0, 0, 0])).2.alloc.freeCalls = 0) := by
  refine ⟨fun v nc hI hR hF hA hnc => ?_, fun v hI hR hF hA => ?_,
    by decide, by decide, by decide, by decide⟩
  · have hs := reserve_succeeds_alloc_only hI hR hA hnc
    have hc := @reserve_counters_alloc_only v nc hR hF
    rcases hE : vector_reserve v nc with ⟨b, w⟩
    rw [hE] at hs
    simp only at hs
    subst hs
    obtain ⟨-, -, -, -, -, -, -, -, -, hrd⟩ := reserve_true_spec hI hE
    rw [hE] at hc
    exact ⟨rfl, hc.1, hc.2, fun i hi => hrd i hi⟩
  · have hs := shrink_succeeds_alloc_only hI hR hA
    have hc := shrink_counters_alloc_only (v := v) hR hF
    rcases hE : vector_shrink_to_fit v with ⟨b, w⟩
    rw [hE] at hs
    simp only at hs
    subst hs
    obtain ⟨-, -, -, -, hrd, -⟩ := shrink_true_spec hI hE
    rw [hE] at hc
    exact ⟨rfl, hc.1, hc.2, fun i hi => hrd i hi⟩

theorem C7_alloc_only_fallback_witness :
    (Inv varena ∧ varena.alloc.hasRealloc = false ∧ varena.alloc.hasFree = false ∧
     (∀ k s, varena.alloc.allocOk k s = true) ∧ 6 * varena.elem_size ≤ SIZE_MAX) ∧
    ((vector_reserve varena 6).1 = true ∧
     (vector_reserve varena 6).2.alloc.reallocCalls = varena.alloc.reallocCalls ∧
     (vector_reserve varena 6).2.alloc.freeCalls = varena.alloc.freeCalls ∧
     (∀ i, i < varena.size → vector_get (vector_reserve varena 6).2 i = vector_get varena i)) :=
  ⟨⟨by decide, rfl, rfl, fun _ _ => rfl, by decide⟩,
   C7_alloc_only_fallback.1 varena 6 (by decide) rfl rfl (fun _ _ => rfl) (by decide)⟩


/-- C8: construction is rejected (the construction-time assertion fires,
and in tolerant builds the produced record is not a usable/valid vector)
exactly when elem_size == 0 or the allocator lacks allocate; otherwise
vector_init produces an empty vector (size 0, capacity 0, no storage) bound
to the given element size and allocator. -/
theorem C8_init_validation (a : Allocator) (es : Nat) :
    (vector_init_ok a es = false ↔ (es = 0 ∨ a.hasAlloc = false)) ∧
    (vector_init_ok a es = false → vector_is_valid (vector_init a es) = false) ∧
    (vector_init_ok a es = true →
      (vector_init a es).size = 0 ∧ (vector_init a es).capacity = 0 ∧
      (vector_init a es).data = none ∧ (vector_init a es).elem_size = es ∧
      (vector_init a es).alloc = a) := by
  have hiff : vector_init_ok a es = false ↔ (es = 0 ∨ a.hasAlloc = false) := by
    unfold vector_init_ok
    cases ha : a.hasAlloc <;> simp
  refine ⟨hiff, fun h => ?_, fun _ => ⟨rfl, rfl, rfl, rfl, rfl⟩⟩
  unfold vector_is_valid vector_init
  unfold vector_init_ok at h
  simpa using h

theorem C8_init_validation_witness :
    (vector_init_ok okAllocator 4 = true) ∧
    ((vector_init okAllocator 4).size = 0 ∧ (vector_init okAllocator 4).capacity = 0 ∧
     (vector_init okAllocator 4).data = none ∧ (vector_init okAllocator 4).elem_size = 4 ∧
     (vector_init okAllocator 4).alloc = okAllocator) :=
  ⟨by decide, (C8_init_validation okAllocator 4).2.2 (by decide)⟩

/-- C9 counterexample: with 1-byte elements and an always-succeeding
allocator, 2^64 pushes all report success (the last wraps the size to 0)
and the following shrink_to_fit also succeeds, yet afterwards capacity and
size are 0 — not the number of pushed values — and the first pushed value
is no longer readable at its original index. -/
theorem C9_counterexample :
    (pushAll (vector_init okAllocator 1) (List.replicate (2 ^ 64) [0])).1 = true ∧
    (vector_shrink_to_fit (pushAll (vector_init okAllocator 1) (List.replicate (2 ^ 64) [0])).2).1 = true ∧
    (vector_shrink_to_fit (pushAll (vector_init okAllocator 1) (List.replicate (2 ^ 64) [0])).2).2.capacity = 0 ∧
    (vector_shrink_to_fit (pushAll (vector_init okAllocator 1) (List.replicate (2 ^ 64) [0])).2).2.size = 0 ∧
    vector_get (vector_shrink_to_fit (pushAll (vector_init okAllocator 1) (List.replicate (2 ^ 64) [0])).2).2 0 ≠ [0] ∧
    (2 : Nat) ^ 64 ≠ 0 := by
  have hI0 : Inv (vector_init okAllocator 1) :=
    ⟨Nat.le_refl 0, Nat.one_pos, by decide, rfl, Nat.zero_le _, rfl,
     by simp [vector_init]⟩
  obtain ⟨w, hrun, hIw, hsw, hew, hAw, hRw⟩ :=
    pushAll_replicate_oracle SIZE_MAX (vector_init okAllocator 1) [0] hI0 rfl rfl
      (fun _ _ => rfl) (fun _ _ => rfl) (by simp [vector_init])
  have hs0 : w.size = SIZE_MAX := by simpa [vector_init] using hsw
  have hcap : w.capacity = SIZE_MAX := by
    have h1 := hIw.1
    have h2 := hIw.2.2.2.2.1
    rw [hew, Nat.mul_one] at h2
    omega
  have hwrap := push_wrap (v := w) (e := [0]) hs0 hcap
  have h64 : (2 : Nat) ^ 64 = SIZE_MAX + 1 := by
    have hp : 0 < 2 ^ 64 := Nat.pos_pow_of_pos _ (by norm_num)
    unfold SIZE_MAX
    omega
  rw [h64, List.replicate_succ', pushAll_append _ _ _ _ hrun]
  rcases hp : vector_push w (some [0]) with ⟨b, v1⟩
  rw [hp] at hwrap
  obtain ⟨hb, hv1s, hv1c⟩ := hwrap
  simp only at hb hv1s hv1c
  subst hb
  simp only [pushAll, hp]
  have hne : ¬ v1.size = v1.capacity := by
    rw [hv1s, hv1c]
    decide
  have hshr : (vector_shrink_to_fit v1).1 = true ∧
      (vector_shrink_to_fit v1).2.capacity = 0 ∧
      (vector_shrink_to_fit v1).2.size = 0 ∧
      (vector_shrink_to_fit v1).2.data = none := by
    simp only [vector_shrink_to_fit]
    rw [if_neg hne, if_pos hv1s]
    exact ⟨rfl, rfl, hv1s, rfl⟩
  obtain ⟨hb2, hc2, hs2, hd2⟩ := hshr
  refine ⟨trivial, hb2, hc2, hs2, ?_, by omega⟩
  simp [vector_get, hd2, readBytes]

/-- C9 (amended): after any successful sequence of at most SIZE_MAX pushes
on a fresh vector followed by a successful shrink_to_fit, capacity equals
size (the number of pushed values) and every element is readable unchanged
at its index; shrink_to_fit is a no-op success when size == capacity, and
when size == 0 it releases storage entirely and resets capacity to 0.
(The length bound is forced by the size_t wrap-around exhibited in the
counterexample.) -/
theorem C9_shrink_round_trip :
    (∀ a es xs b1 w1 b2 w2, 0 < es → es ≤ SIZE_MAX → a.hasAlloc = true →
      (∀ x ∈ xs, List.length x = es) → xs.length ≤ SIZE_MAX →
      pushAll (vector_init a es) xs = (b1, w1) →
      vector_shrink_to_fit w1 = (b2, w2) → b1 = true → b2 = true →
      w2.capacity = xs.length ∧ w2.size = xs.length ∧
      (∀ i, i < xs.length → vector_get w2 i = xs.getD i [])) ∧
    (∀ v, v.size = v.capacity → vector_shrink_to_fit v = (true, v)) ∧
    (∀ v, Inv v → v.size = 0 →
      (vector_shrink_to_fit v).1 = true ∧ (vector_shrink_to_fit v).2.capacity = 0 ∧
      (vector_shrink_to_fit v).2.data = none) := by
  refine ⟨?_, fun v hc => shrink_noop hc, fun v hI h0 => ?_⟩
  · intro a es xs b1 w1 b2 w2 hes hesm hha hlen hn hrun hshr hb1 hb2
    subst hb1
    subst hb2
    have hI0 : Inv (vector_init a es) :=
      ⟨le_refl 0, hes, hesm, hha, by simp [vector_init], by simp [bufLen, vector_init],
       by simp [vector_init]⟩
    obtain ⟨hI1, hs1, he1, -, hj1⟩ := pushAll_true_spec xs (vector_init a es) w1 hI0 hlen
      (by simpa [vector_init] using hn) hrun
    obtain ⟨-, hs2, -, hc2, hrd2, -⟩ := shrink_true_spec hI1 hshr
    have hsz1 : w1.size = xs.length := by simpa [vector_init] using hs1
    refine ⟨by rw [hc2, hsz1], by rw [hs2, hsz1], fun i hi => ?_⟩
    rw [hrd2 i (by omega)]
    have := hj1 i hi
    simpa [vector_init] using this
  · by_cases hc : v.size = v.capacity
    · rw [shrink_noop hc]
      have hcap0 : v.capacity = 0 := by omega
      exact ⟨rfl, hcap0, hI.2.2.2.2.2.2.mpr hcap0⟩
    · simp only [vector_shrink_to_fit]
      rw [if_neg hc, if_pos h0]
      exact ⟨rfl, rfl, rfl⟩

theorem C9_shrink_round_trip_witness :
    (vfour.size = vfour.capacity) ∧ vector_shrink_to_fit vfour = (true, vfour) :=
  ⟨by decide, C9_shrink_round_trip.2.1 vfour (by decide)⟩

/-- C10 counterexample: at the live state size == capacity == SIZE_MAX the
push does report success without establishing size < capacity, but it does
not increment size past capacity as the claim states — the size_t
increment wraps the size to 0, which is not greater than the capacity. -/
theorem C10_counterexample :
    vector_is_valid vwrap = true ∧ vwrap.size = vwrap.capacity ∧
    (vector_push vwrap (some [7])).1 = true ∧
    (vector_push vwrap (some [7])).2.size = 0 ∧
    ¬ (vector_push vwrap (some [7])).2.capacity < (vector_push vwrap (some [7])).2.size := by
  have hwrap := push_wrap (v := vwrap) (e := [7]) rfl rfl
  obtain ⟨h1, h2, h3⟩ := hwrap
  refine ⟨?_, rfl, h1, h2, ?_⟩
  · show (true && (SIZE_MAX == 0 || (vwrap.data).isSome) && true && true) = true
    simp [vwrap]
  · rw [h2]
    omega

/-- C10 (amended): there is a live vector state — size == capacity ==
SIZE_MAX — in which vector_push reports success without establishing
size < capacity: the saturating growth step targets SIZE_MAX, vector_reserve
treats target <= capacity as a no-op success, push then writes at byte
offset size * elem_size == capacity * elem_size (one past the last backed
slot), and the size_t increment wraps size to 0 rather than moving it past
capacity. -/
theorem C10_push_wrap_at_size_max :
    vector_is_valid vwrap = true ∧ vwrap.size = vwrap.capacity ∧
    grow_target vwrap.capacity = SIZE_MAX ∧
    vector_reserve vwrap (grow_target vwrap.capacity) = (true, vwrap) ∧
    (vector_push vwrap (some [7])).1 = true ∧
    w64 (vwrap.size * vwrap.elem_size) = vwrap.capacity * vwrap.elem_size ∧
    bufLen vwrap = vwrap.capacity * vwrap.elem_size ∧
    (vector_push vwrap (some [7])).2.size = 0 := by
  have hwrap := push_wrap (v := vwrap) (e := [7]) rfl rfl
  obtain ⟨h1, h2, -⟩ := hwrap
  have hgt : grow_target vwrap.capacity = SIZE_MAX := grow_target_size_max
  refine ⟨?_, rfl, hgt, ?_, h1, ?_, ?_, h2⟩
  · show (true && (SIZE_MAX == 0 || (vwrap.data).isSome) && true && true) = true
    simp [vwrap]
  · rw [hgt]
    simp only [vector_reserve]
    rw [if_pos (show SIZE_MAX ≤ vwrap.capacity from le_refl _)]
  · show w64 (SIZE_MAX * 1) = SIZE_MAX * 1
    exact w64_eq_of_le (by simp)
  · show (List.replicate SIZE_MAX (0 : Nat)).length = SIZE_MAX * 1
    simp

end CVec
